import Mathlib

/-!
Shallow embedding of the reconciliation core of the `seller-apis` repository
(`src/seller.py` for the Ozon integration, `src/market.py` for the
Yandex.Market integration), together with theorems settling the frozen
claims about it.

Conventions of the embedding:
* Python strings are Lean `String`; supplier rows (dicts with keys
  `Код`, `Количество`, `Цена`) are the structure `Watch` with fields
  `code`, `quantity`, `price` (the source coerces each field through
  `str(...)`, so modelling them as strings is exact).
* Python `int(...)` applied to a string may raise `ValueError`; it is
  modelled by `int_parse : String → Option Int`, and functions that can
  raise return `Option`.
* `list.remove(x)` removes the first occurrence and is modelled by
  `List.erase`; the membership test `x in lst` is `x ∈ lst`.
* `seller.create_stocks` and `market.create_stocks` mutate their
  `offer_ids` argument in place; they are embedded in state-passing
  style, returning the produced records together with the final value
  of `offer_ids`.
* `market.create_stocks` reads the current UTC time; the clock reading
  is passed explicitly as the `date` argument.
-/

/-- Digits-to-number accumulator used by the model of Python `int(...)`. -/
def digitsToNat (ds : List Char) : Nat :=
  ds.foldl (fun a c => 10 * a + (c.toNat - ('0').toNat)) 0

/-- Surrounding-whitespace stripping on a character list (the whitespace
stripping Python `int(...)` applies to its argument). -/
def trimChars (l : List Char) : List Char :=
  ((l.dropWhile Char.isWhitespace).reverse.dropWhile Char.isWhitespace).reverse

/-- Model of Python `int(s)` on a decimal string: optional surrounding
whitespace, an optional single sign, then a nonempty run of ASCII digits.
(CPython additionally accepts underscore group separators and non-ASCII
digits; no value in this development exercises those.)  `none` models a
raised `ValueError`. -/
def int_parse (s : String) : Option Int :=
  match trimChars s.data with
  | [] => none
  | '-' :: ds =>
      if ds ≠ [] ∧ ds.all Char.isDigit then some (-(digitsToNat ds : Int)) else none
  | '+' :: ds =>
      if ds ≠ [] ∧ ds.all Char.isDigit then some ((digitsToNat ds : Int)) else none
  | ds =>
      if ds.all Char.isDigit then some ((digitsToNat ds : Int)) else none

namespace Seller

/-- Model of Python `price.split(".")[0]`: the prefix of the character
list before the first `'.'` (the whole list when no `'.'` occurs). -/
def takeBeforeDot : List Char → List Char
  | [] => []
  | c :: cs => if c = '.' then [] else c :: takeBeforeDot cs

/-- `seller.price_conversion`: `re.sub("[^0-9]", "", price.split(".")[0])` —
truncate at the first dot, then keep only the ASCII digits. -/
def price_conversion (price : String) : String :=
  String.mk ((takeBeforeDot price.data).filter Char.isDigit)

/-- Chunking loop underlying `seller.divide`: successive slices
`lst[i : i + (m+1)]` of the list, i.e. chunks of size `m + 1`. -/
def chunk (m : Nat) : List α → List (List α)
  | [] => []
  | x :: xs => (x :: xs.take m) :: chunk m (xs.drop m)
termination_by l => l.length
decreasing_by
  simp only [List.length_drop, List.length_cons]
  omega

/-- `seller.divide(lst, n)`: the generator yielding `lst[i : i + n]` for
`i = 0, n, 2n, …` below `len(lst)` (materialised as a list of chunks).
`range` with step `0` raises `ValueError` in Python, modelled by `none`. -/
def divide (lst : List α) (n : Nat) : Option (List (List α)) :=
  if n = 0 then none else some (chunk (n - 1) lst)

end Seller

/-- One row of the supplier feed: the dict keys `Код`, `Количество`,
`Цена` become the fields `code`, `quantity`, `price`. -/
structure Watch where
  code : String
  quantity : String
  price : String
deriving DecidableEq

/-- One Ozon stock-update record `{"offer_id": …, "stock": …}` produced
by `seller.create_stocks`. -/
structure StockRec where
  offer_id : String
  stock : Int
deriving DecidableEq

namespace Seller

/-- The first loop of `seller.create_stocks`: walk the supplier feed in
order; when a row's code is in the working `offer_ids` list, compute the
stock per the quantity rule (`">10"` ↦ 100, `"1"` ↦ 0, otherwise
`int(quantity)`, whose failure aborts the whole call), emit the record,
and remove the code from the working list (first occurrence, as Python
`list.remove` does).  Returns the matched records in feed order together
with the final working list. -/
def stocks_loop : List Watch → List String → Option (List StockRec × List String)
  | [], ids => some ([], ids)
  | w :: ws, ids =>
      if w.code ∈ ids then
        match (if w.quantity = ">10" then some (100 : Int)
               else if w.quantity = "1" then some 0
               else int_parse w.quantity) with
        | none => none
        | some s =>
            match stocks_loop ws (ids.erase w.code) with
            | none => none
            | some (recs, rem) => some (⟨w.code, s⟩ :: recs, rem)
      else stocks_loop ws ids

/-- `seller.create_stocks(watch_remnants, offer_ids)`: the matched
records of `stocks_loop` followed by a zero-stock record for every
offer id left in the working list.  The second component is the final
value of the (mutated) `offer_ids` argument. -/
def create_stocks (watch_remnants : List Watch) (offer_ids : List String) :
    Option (List StockRec × List String) :=
  (stocks_loop watch_remnants offer_ids).map
    (fun p => (p.1 ++ p.2.map (fun i => ⟨i, 0⟩), p.2))

/-- One Ozon price-update record produced by `seller.create_prices`:
`{"auto_action_enabled": "UNKNOWN", "currency_code": "RUB",
"offer_id": …, "old_price": "0", "price": price_conversion(…)}`.
Note the `price` field is a (possibly empty) digit string. -/
structure PriceRec where
  auto_action_enabled : String
  currency_code : String
  offer_id : String
  old_price : String
  price : String
deriving DecidableEq

/-- The record `seller.create_prices` builds for one matched supplier row. -/
def mkPrice (w : Watch) : PriceRec :=
  ⟨"UNKNOWN", "RUB", w.code, "0", price_conversion w.price⟩

/-- `seller.create_prices(watch_remnants, offer_ids)`: one record per
supplier row whose code is in `offer_ids` (which is only read, never
mutated, here).  This function cannot raise. -/
def create_prices (watch_remnants : List Watch) (offer_ids : List String) :
    List PriceRec :=
  match watch_remnants with
  | [] => []
  | w :: ws =>
      if w.code ∈ offer_ids then mkPrice w :: create_prices ws offer_ids
      else create_prices ws offer_ids

end Seller

namespace Market

/-- One entry of the `items` list of a Yandex.Market stock record:
`{"count": …, "type": "FIT", "updatedAt": date}`. -/
structure StockItem where
  count : Int
  type : String
  updatedAt : String
deriving DecidableEq

/-- One Yandex.Market stock-update record
`{"sku": …, "warehouseId": …, "items": […]}`. -/
structure StockRec where
  sku : String
  warehouseId : String
  items : List StockItem
deriving DecidableEq

/-- The record `market.create_stocks` builds for offer id `sku` with
stock `s`, at warehouse `wh`, timestamped `date`. -/
def mkStock (wh date sku : String) (s : Int) : StockRec :=
  ⟨sku, wh, [⟨s, "FIT", date⟩]⟩

/-- The matching loop of `market.create_stocks`: identical control flow
to `Seller.stocks_loop` (same quantity rule, same `in` test and
`remove`), but emitting Yandex.Market-shaped records that carry the
warehouse id and the timestamp `date`. -/
def stocks_loop (wh date : String) :
    List Watch → List String → Option (List StockRec × List String)
  | [], ids => some ([], ids)
  | w :: ws, ids =>
      if w.code ∈ ids then
        match (if w.quantity = ">10" then some (100 : Int)
               else if w.quantity = "1" then some 0
               else int_parse w.quantity) with
        | none => none
        | some s =>
            match stocks_loop wh date ws (ids.erase w.code) with
            | none => none
            | some (recs, rem) => some (mkStock wh date w.code s :: recs, rem)
      else stocks_loop wh date ws ids

/-- `market.create_stocks(watch_remnants, offer_ids, warehouse_id)`:
as `Seller.create_stocks`, but in the Yandex.Market record shape.  The
`date` argument is the reading of `datetime.datetime.utcnow()` the
function takes at entry. -/
def create_stocks (watch_remnants : List Watch) (offer_ids : List String)
    (warehouse_id date : String) : Option (List StockRec × List String) :=
  (stocks_loop warehouse_id date watch_remnants offer_ids).map
    (fun p => (p.1 ++ p.2.map (fun i => mkStock warehouse_id date i 0), p.2))

/-- The `price` sub-object of a Yandex.Market price record:
`{"value": int(price_conversion(…)), "currencyId": "RUR"}`. -/
structure PriceBody where
  value : Int
  currencyId : String
deriving DecidableEq

/-- One Yandex.Market price-update record `{"id": …, "price": {…}}`. -/
structure PriceRec where
  id : String
  price : PriceBody
deriving DecidableEq

/-- The record `market.create_prices` builds for one matched supplier
row; `none` models the `ValueError` raised by
`int(price_conversion(watch.get("Цена")))` when the normalized price is
not a parseable integer (in particular when it is empty). -/
def mkPrice (w : Watch) : Option PriceRec :=
  (int_parse (Seller.price_conversion w.price)).map (fun v => ⟨w.code, ⟨v, "RUR"⟩⟩)

/-- `market.create_prices(watch_remnants, offer_ids)`: one record per
supplier row whose code is in `offer_ids`; a parse failure on any
matched row aborts the whole call (`none`). -/
def create_prices (watch_remnants : List Watch) (offer_ids : List String) :
    Option (List PriceRec) :=
  match watch_remnants with
  | [] => some []
  | w :: ws =>
      if w.code ∈ offer_ids then
        match mkPrice w with
        | none => none
        | some r =>
            match create_prices ws offer_ids with
            | none => none
            | some rs => some (r :: rs)
      else create_prices ws offer_ids

end Market

namespace Seller

/-- One item of an Ozon `product/list` response page (only the
`offer_id` field is consumed). -/
structure Product where
  offer_id : String
deriving DecidableEq

/-- One Ozon `get_product_list` response: `items`, the `last_id` cursor
for the next call, and the server-reported `total`. -/
structure Page where
  items : List Product
  last_id : String
  total : Nat
deriving DecidableEq

/-- The `while True` loop of `seller.get_offer_ids`, run against a trace
of successive `get_product_list` responses: extend the accumulated
product list with the page's items and stop when the server-reported
`total` equals the accumulated length (checked after extending, as in
the source).  `none` models the loop issuing a fetch beyond the supplied
trace (no exhaustion signal within it). -/
def collect_loop : List Page → List Product → Option (List Product)
  | [], _ => none
  | p :: rest, acc =>
      if p.total = (acc ++ p.items).length then some (acc ++ p.items)
      else collect_loop rest (acc ++ p.items)

/-- `seller.get_offer_ids`, abstracted over the page trace: paginate to
exhaustion, then map each accumulated product to its `offer_id`. -/
def get_offer_ids (pages : List Page) : Option (List String) :=
  (collect_loop pages []).map (fun ps => ps.map Product.offer_id)

end Seller

namespace Market

/-- The `offer` sub-object of a Yandex.Market mapping entry (only
`shopSku` is consumed). -/
structure Offer where
  shopSku : String
deriving DecidableEq

/-- One entry of `offerMappingEntries`. -/
structure Entry where
  offer : Offer
deriving DecidableEq

/-- One Yandex.Market `get_product_list` response:
`offerMappingEntries` plus `paging.nextPageToken`.  Python breaks on
`if not page:`, i.e. on an empty/absent token; absence is modelled as
the empty string. -/
structure Page where
  offerMappingEntries : List Entry
  nextPageToken : String
deriving DecidableEq

/-- The `while True` loop of `market.get_offer_ids`, run against a trace
of successive responses: extend the accumulated entry list and stop when
the page's `nextPageToken` is empty.  `none` models a fetch beyond the
supplied trace. -/
def collect_loop : List Page → List Entry → Option (List Entry)
  | [], _ => none
  | p :: rest, acc =>
      if p.nextPageToken = "" then some (acc ++ p.offerMappingEntries)
      else collect_loop rest (acc ++ p.offerMappingEntries)

/-- `market.get_offer_ids`, abstracted over the page trace: paginate to
exhaustion, then map each accumulated entry to its `offer.shopSku`. -/
def get_offer_ids (pages : List Page) : Option (List String) :=
  (collect_loop pages []).map (fun es => es.map (fun e => e.offer.shopSku))

end Market

/-- Elementwise map into `Option`, failing when any element fails: the
shape of a Python loop that appends `g(x)` for each `x` and lets any
raised exception abort the whole call. -/
def mapOption {α β : Type} (g : α → Option β) : List α → Option (List β)
  | [] => some []
  | a :: t =>
      match g a, mapOption g t with
      | some b, some bs => some (b :: bs)
      | _, _ => none

/-- Spec-side view of a Yandex.Market stock record with the `updatedAt`
timestamp dropped (all fields that do not depend on the clock). -/
def stripStock (r : Market.StockRec) : String × String × List (Int × String) :=
  (r.sku, r.warehouseId, r.items.map (fun it => (it.count, it.type)))

/-- Default page used by the `getD` accesses in the pagination
specifications (never the value actually read at in-range indices). -/
def sellerPageDefault : Seller.Page := ⟨[], "", 0⟩

/-- Default page for the Yandex.Market pagination specification. -/
def marketPageDefault : Market.Page := ⟨[], ""⟩

/-- The Ozon loop's exhaustion signal at page index `k`: the
server-reported `total` of page `k` equals the number of items
accumulated over pages `0..k`. -/
def sellerExhaustsAt (pages : List Seller.Page) (k : Nat) : Prop :=
  (pages.getD k sellerPageDefault).total =
    (((pages.take (k + 1)).map Seller.Page.items).flatten).length

instance (pages : List Seller.Page) (k : Nat) :
    Decidable (sellerExhaustsAt pages k) := by
  unfold sellerExhaustsAt; infer_instance

/-- The Yandex.Market loop's exhaustion signal at page index `k`: an
empty `nextPageToken`. -/
def marketExhaustsAt (pages : List Market.Page) (k : Nat) : Prop :=
  (pages.getD k marketPageDefault).nextPageToken = ""

instance (pages : List Market.Page) (k : Nat) :
    Decidable (marketExhaustsAt pages k) := by
  unfold marketExhaustsAt; infer_instance

section HelperLemmas

/-- The Yandex.Market stock loop is the Ozon stock loop with each record
converted to the Yandex.Market shape (same control flow, same quantity
rule, same working-set mutation). -/
theorem market_stocks_loop_eq (wh date : String) (feed : List Watch) (ids : List String) :
    Market.stocks_loop wh date feed ids =
      (Seller.stocks_loop feed ids).map
        (fun p => (p.1.map (fun r => Market.mkStock wh date r.offer_id r.stock), p.2)) := by
  induction feed generalizing ids with
  | nil => simp [Market.stocks_loop, Seller.stocks_loop]
  | cons w ws ih =>
      simp only [Market.stocks_loop, Seller.stocks_loop]
      by_cases hm : w.code ∈ ids
      · simp only [if_pos hm]
        cases hq : (if w.quantity = ">10" then some (100 : Int)
                    else if w.quantity = "1" then some 0
                    else int_parse w.quantity) with
        | none => simp
        | some s =>
            rw [ih]
            cases hr : Seller.stocks_loop ws (ids.erase w.code) with
            | none => simp
            | some p => cases p with | mk recs rem => simp
      · simp only [if_neg hm]
        exact ih ids

/-- `market.create_stocks` refines `seller.create_stocks`: it produces
exactly the Ozon records converted to the Yandex.Market shape, and the
same final working set. -/
theorem market_create_stocks_eq (feed : List Watch) (ids : List String) (wh date : String) :
    Market.create_stocks feed ids wh date =
      (Seller.create_stocks feed ids).map
        (fun p => (p.1.map (fun r => Market.mkStock wh date r.offer_id r.stock), p.2)) := by
  unfold Market.create_stocks Seller.create_stocks
  rw [market_stocks_loop_eq]
  cases Seller.stocks_loop feed ids with
  | none => rfl
  | some p => cases p with | mk recs rem => simp [Market.mkStock]

/-- The matched records' offer ids together with the final working set
are a permutation of the initial working set. -/
theorem stocks_loop_perm (feed : List Watch) :
    ∀ (ids : List String) recs rem,
      Seller.stocks_loop feed ids = some (recs, rem) →
      (recs.map StockRec.offer_id ++ rem).Perm ids := by
  induction feed with
  | nil =>
      intro ids recs rem h
      simp only [Seller.stocks_loop, Option.some.injEq, Prod.mk.injEq] at h
      obtain ⟨h1, h2⟩ := h
      subst h1; subst h2; simp
  | cons w ws ih =>
      intro ids recs rem h
      simp only [Seller.stocks_loop] at h
      by_cases hm : w.code ∈ ids
      · rw [if_pos hm] at h
        cases hq : (if w.quantity = ">10" then some (100 : Int)
                    else if w.quantity = "1" then some 0
                    else int_parse w.quantity) with
        | none => rw [hq] at h; exact absurd h (by simp)
        | some s =>
            rw [hq] at h
            cases hr : Seller.stocks_loop ws (ids.erase w.code) with
            | none => rw [hr] at h; exact absurd h (by simp)
            | some p =>
                obtain ⟨recs', rem'⟩ := p
                rw [hr] at h
                simp only [Option.some.injEq, Prod.mk.injEq] at h
                obtain ⟨h1, h2⟩ := h
                subst h1; subst h2
                have hper := ih (ids.erase w.code) recs' rem' hr
                simpa using (hper.cons w.code).trans (List.perm_cons_erase hm).symm
      · rw [if_neg hm] at h
        exact ih ids recs rem h

/-- Filtering after erasing one occurrence from a duplicate-free list is
filtering with the extra conjunct `x ≠ c`. -/
theorem nodup_erase_filter (c : String) (p : String → Bool) :
    ∀ (l : List String), l.Nodup →
      (l.erase c).filter p = l.filter (fun x => decide (x ≠ c) && p x) := by
  intro l hl
  induction l with
  | nil => simp
  | cons a t ih =>
      rw [List.erase_cons]
      by_cases hac : a = c
      · subst hac
        rw [if_pos (by simp)]
        have hnotin : a ∉ t := (List.nodup_cons.mp hl).1
        rw [List.filter_cons, if_neg (by simp)]
        refine List.filter_congr ?_
        intro x hx
        have hxa : x ≠ a := fun hxe => hnotin (hxe ▸ hx)
        simp [hxa]
      · have hbeq : (a == c) = false := beq_eq_false_iff_ne.mpr hac
        rw [if_neg (by simp [hbeq])]
        rw [List.filter_cons, List.filter_cons]
        have ht := ih ((List.nodup_cons.mp hl).2)
        by_cases hpa : p a = true
        · simp [hpa, hac, ht]
        · simp [hpa, hac, ht]

/-- Over a duplicate-free working set, the final working set computed by
the stock loop is the initial one with every code occurring in the feed
filtered out. -/
theorem stocks_loop_final_ids (feed : List Watch) :
    ∀ (ids : List String), ids.Nodup →
      ∀ recs rem, Seller.stocks_loop feed ids = some (recs, rem) →
        rem = ids.filter (fun x => decide (x ∉ feed.map Watch.code)) := by
  induction feed with
  | nil =>
      intro ids _ recs rem h
      simp only [Seller.stocks_loop, Option.some.injEq, Prod.mk.injEq] at h
      simp [← h.2]
  | cons w ws ih =>
      intro ids hnd recs rem h
      simp only [Seller.stocks_loop] at h
      by_cases hm : w.code ∈ ids
      · rw [if_pos hm] at h
        cases hq : (if w.quantity = ">10" then some (100 : Int)
                    else if w.quantity = "1" then some 0
                    else int_parse w.quantity) with
        | none => rw [hq] at h; exact absurd h (by simp)
        | some s =>
            rw [hq] at h
            cases hr : Seller.stocks_loop ws (ids.erase w.code) with
            | none => rw [hr] at h; exact absurd h (by simp)
            | some p =>
                obtain ⟨recs', rem'⟩ := p
                rw [hr] at h
                simp only [Option.some.injEq, Prod.mk.injEq] at h
                have h2 := h.2
                subst h2
                have := ih (ids.erase w.code) (hnd.erase w.code) recs' rem' hr
                rw [this, nodup_erase_filter w.code _ ids hnd]
                refine List.filter_congr ?_
                intro x _
                simp [List.mem_cons, not_or]
      · rw [if_neg hm] at h
        have := ih ids hnd recs rem h
        rw [this]
        refine List.filter_congr ?_
        intro x hx
        have hxw : x ≠ w.code := fun he => hm (he ▸ hx)
        simp [List.mem_cons, hxw]

/-- The matched records are emitted in supplier-feed order and the final
working set preserves the initial order. -/
theorem stocks_loop_sublist (feed : List Watch) :
    ∀ (ids : List String) recs rem,
      Seller.stocks_loop feed ids = some (recs, rem) →
      (recs.map StockRec.offer_id).Sublist (feed.map Watch.code) ∧ rem.Sublist ids := by
  induction feed with
  | nil =>
      intro ids recs rem h
      simp only [Seller.stocks_loop, Option.some.injEq, Prod.mk.injEq] at h
      obtain ⟨h1, h2⟩ := h
      subst h1; subst h2
      exact ⟨List.nil_sublist _, List.Sublist.refl _⟩
  | cons w ws ih =>
      intro ids recs rem h
      simp only [Seller.stocks_loop] at h
      by_cases hm : w.code ∈ ids
      · rw [if_pos hm] at h
        cases hq : (if w.quantity = ">10" then some (100 : Int)
                    else if w.quantity = "1" then some 0
                    else int_parse w.quantity) with
        | none => rw [hq] at h; exact absurd h (by simp)
        | some s =>
            rw [hq] at h
            cases hr : Seller.stocks_loop ws (ids.erase w.code) with
            | none => rw [hr] at h; exact absurd h (by simp)
            | some p =>
                obtain ⟨recs', rem'⟩ := p
                rw [hr] at h
                simp only [Option.some.injEq, Prod.mk.injEq] at h
                obtain ⟨h1, h2⟩ := h
                subst h1; subst h2
                obtain ⟨hs1, hs2⟩ := ih (ids.erase w.code) recs' rem' hr
                exact ⟨List.Sublist.cons₂ _ hs1,
                  hs2.trans (List.erase_sublist _ _)⟩
      · rw [if_neg hm] at h
        obtain ⟨hs1, hs2⟩ := ih ids recs rem h
        exact ⟨List.Sublist.cons _ hs1, hs2⟩

/-- `seller.create_prices` is exactly: keep the supplier rows whose code
is a known offer id, in feed order, and map each to its price record. -/
theorem seller_create_prices_eq (feed : List Watch) (ids : List String) :
    Seller.create_prices feed ids =
      (feed.filter (fun w => decide (w.code ∈ ids))).map Seller.mkPrice := by
  induction feed with
  | nil => simp [Seller.create_prices]
  | cons w ws ih =>
      rw [List.filter_cons]
      by_cases hm : w.code ∈ ids
      · simp [Seller.create_prices, hm, ih]
      · simp [Seller.create_prices, hm, ih]

/-- `market.create_prices` is exactly: keep the supplier rows whose code
is a known offer id, in feed order, and map each to its price record,
failing as a whole when any kept row fails to parse. -/
theorem market_create_prices_eq (feed : List Watch) (ids : List String) :
    Market.create_prices feed ids =
      mapOption Market.mkPrice (feed.filter (fun w => decide (w.code ∈ ids))) := by
  induction feed with
  | nil => simp [Market.create_prices, mapOption]
  | cons w ws ih =>
      rw [List.filter_cons]
      by_cases hm : w.code ∈ ids
      · rw [if_pos (by simp [hm])]
        simp only [Market.create_prices, if_pos hm, mapOption]
        cases hq : Market.mkPrice w with
        | none => simp
        | some r =>
            rw [ih]
            cases hrec : mapOption Market.mkPrice
                (ws.filter (fun w => decide (w.code ∈ ids))) with
            | none => simp
            | some rs => simp
      · rw [if_neg (by simp [hm])]
        simp only [Market.create_prices, if_neg hm]
        exact ih

/-- An elementwise-`Option` map fails as soon as one element fails. -/
theorem mapOption_eq_none_of_mem {α β : Type} (g : α → Option β) :
    ∀ (l : List α) (x : α), x ∈ l → g x = none → mapOption g l = none := by
  intro l
  induction l with
  | nil => intro x hx; exact absurd hx (List.not_mem_nil x)
  | cons a t ih =>
      intro x hx hg
      rcases List.mem_cons.mp hx with h | h
      · subst h
        simp [mapOption, hg]
      · cases hga : g a with
        | none => simp [mapOption, hga]
        | some b => simp [mapOption, hga, ih x h hg]

/-- Concatenating the chunks of `seller.divide` restores the input. -/
theorem chunk_flatten (m : Nat) (l : List α) : (Seller.chunk m l).flatten = l := by
  induction l using Seller.chunk.induct m with
  | case1 => simp [Seller.chunk]
  | case2 x xs ih => simp [Seller.chunk, ih]

/-- `seller.divide` yields no chunk at all on the empty list, and every
input chunk is nonempty. -/
theorem chunk_eq_nil_iff (m : Nat) (l : List α) : Seller.chunk m l = [] ↔ l = [] := by
  cases l <;> simp [Seller.chunk]

/-- Every chunk is nonempty and no longer than the requested size. -/
theorem chunk_mem_length (m : Nat) (l : List α) :
    ∀ c ∈ Seller.chunk m l, c ≠ [] ∧ c.length ≤ m + 1 := by
  induction l using Seller.chunk.induct m with
  | case1 => simp [Seller.chunk]
  | case2 x xs ih =>
      intro c hc
      rw [Seller.chunk] at hc
      rcases List.mem_cons.mp hc with h | h
      · subst h
        refine ⟨by simp, ?_⟩
        simp only [List.length_cons, List.length_take]
        omega
      · exact ih c h

/-- Every chunk except the last has exactly the requested size. -/
theorem chunk_dropLast_length (m : Nat) (l : List α) :
    ∀ c ∈ (Seller.chunk m l).dropLast, c.length = m + 1 := by
  induction l using Seller.chunk.induct m with
  | case1 => simp [Seller.chunk]
  | case2 x xs ih =>
      intro c hc
      simp only [Seller.chunk] at hc
      cases hrest : Seller.chunk m (xs.drop m) with
      | nil => rw [hrest] at hc; simp at hc
      | cons r rs =>
          rw [hrest] at hc
          rw [List.dropLast_cons₂] at hc
          rcases List.mem_cons.mp hc with h | h
          · subst h
            have hdrop : xs.drop m ≠ [] := by
              intro he
              rw [(chunk_eq_nil_iff m _).mpr he] at hrest
              exact List.cons_ne_nil r rs hrest.symm
            have hlen : m < xs.length := by
              by_contra hlt
              exact hdrop (List.drop_eq_nil_of_le (by omega))
            simp only [List.length_cons, List.length_take]
            omega
          · exact ih c (hrest ▸ h)

/-- `split(".")[0]` is the longest dot-free prefix. -/
theorem takeBeforeDot_eq_takeWhile (l : List Char) :
    Seller.takeBeforeDot l = l.takeWhile (fun c => decide (c ≠ '.')) := by
  induction l with
  | nil => simp [Seller.takeBeforeDot]
  | cons c cs ih =>
      simp only [Seller.takeBeforeDot]
      by_cases hc : c = '.'
      · rw [if_pos hc, List.takeWhile_cons, if_neg (by simp [hc])]
      · rw [if_neg hc, List.takeWhile_cons, if_pos (by simp [hc]), ih]

/-- The character class `[0-9]` of the regular expression coincides with
`Char.isDigit`. -/
theorem isDigit_eq_range (c : Char) :
    c.isDigit = decide (('0' : Char) ≤ c ∧ c ≤ ('9' : Char)) := by
  simp [Char.isDigit, Char.le_def, decide_eq_decide]

/-- The Ozon pagination loop, started with accumulator `acc`, stops at
the first page whose reported `total` equals the accumulated item count
and returns everything accumulated up to it. -/
theorem seller_collect_spec (pages : List Seller.Page) :
    ∀ (acc : List Seller.Product) (k : Nat), k < pages.length →
      (pages.getD k sellerPageDefault).total
        = acc.length + (((pages.take (k + 1)).map Seller.Page.items).flatten).length →
      (∀ j, j < k → (pages.getD j sellerPageDefault).total
        ≠ acc.length + (((pages.take (j + 1)).map Seller.Page.items).flatten).length) →
      Seller.collect_loop pages acc
        = some (acc ++ ((pages.take (k + 1)).map Seller.Page.items).flatten) := by
  induction pages with
  | nil => intro acc k hk; simp at hk
  | cons p rest ih =>
      intro acc k hk hex hmin
      cases k with
      | zero =>
          simp only [List.getD_cons_zero, List.take_succ_cons, List.take_zero,
            List.map_cons, List.map_nil, List.flatten_cons, List.flatten_nil,
            List.append_nil] at hex ⊢
          simp only [Seller.collect_loop]
          rw [if_pos (by simp [hex])]
      | succ k' =>
          have hne : ¬ p.total = (acc ++ p.items).length := by
            have := hmin 0 (Nat.succ_pos k')
            simpa using this
          simp only [Seller.collect_loop]
          rw [if_neg hne]
          have hk' : k' < rest.length := by simpa using hk
          have hex' : (rest.getD k' sellerPageDefault).total
              = (acc ++ p.items).length
                + (((rest.take (k' + 1)).map Seller.Page.items).flatten).length := by
            have := hex
            simp only [List.getD_cons_succ, List.take_succ_cons, List.map_cons,
              List.flatten_cons, List.length_append] at this ⊢
            omega
          have hmin' : ∀ j, j < k' → (rest.getD j sellerPageDefault).total
              ≠ (acc ++ p.items).length
                + (((rest.take (j + 1)).map Seller.Page.items).flatten).length := by
            intro j hj
            have := hmin (j + 1) (by omega)
            simp only [List.getD_cons_succ, List.take_succ_cons, List.map_cons,
              List.flatten_cons, List.length_append] at this ⊢
            omega
          rw [ih (acc ++ p.items) k' hk' hex' hmin']
          simp

/-- The Yandex.Market pagination loop, started with accumulator `acc`,
stops at the first page with an empty `nextPageToken` and returns
everything accumulated up to it. -/
theorem market_collect_spec (pages : List Market.Page) :
    ∀ (acc : List Market.Entry) (k : Nat), k < pages.length →
      (pages.getD k marketPageDefault).nextPageToken = "" →
      (∀ j, j < k → (pages.getD j marketPageDefault).nextPageToken ≠ "") →
      Market.collect_loop pages acc
        = some (acc ++ ((pages.take (k + 1)).map Market.Page.offerMappingEntries).flatten) := by
  induction pages with
  | nil => intro acc k hk; simp at hk
  | cons p rest ih =>
      intro acc k hk hex hmin
      cases k with
      | zero =>
          simp only [List.getD_cons_zero] at hex
          simp only [Market.collect_loop]
          rw [if_pos hex]
          simp
      | succ k' =>
          have hne : ¬ p.nextPageToken = "" := by
            have := hmin 0 (Nat.succ_pos k')
            simpa using this
          simp only [Market.collect_loop]
          rw [if_neg hne]
          have hk' : k' < rest.length := by simpa using hk
          have hex' : (rest.getD k' marketPageDefault).nextPageToken = "" := by
            simpa using hex
          have hmin' : ∀ j, j < k' →
              (rest.getD j marketPageDefault).nextPageToken ≠ "" := by
            intro j hj
            have := hmin (j + 1) (by omega)
            simpa using this
          rw [ih (acc ++ p.offerMappingEntries) k' hk' hex' hmin']
          simp

/-- A successful `seller.create_stocks` call decomposes into the loop's
matched records followed by the synthesized zero records. -/
theorem create_stocks_decomp (feed : List Watch) (ids : List String) (out : List StockRec)
    (rem : List String) (h : Seller.create_stocks feed ids = some (out, rem)) :
    ∃ recs, Seller.stocks_loop feed ids = some (recs, rem) ∧
      out = recs ++ rem.map (fun i => (⟨i, 0⟩ : StockRec)) := by
  unfold Seller.create_stocks at h
  cases hl : Seller.stocks_loop feed ids with
  | none => rw [hl] at h; exact absurd h (by simp)
  | some p =>
      obtain ⟨recs, rem'⟩ := p
      rw [hl] at h
      simp only [Option.map_some', Option.some.injEq, Prod.mk.injEq] at h
      obtain ⟨h1, h2⟩ := h
      subst h2
      exact ⟨recs, rfl, h1.symm⟩

/-- A successful `market.create_stocks` call is a successful
`seller.create_stocks` call with every record converted to the
Yandex.Market shape. -/
theorem market_create_stocks_decomp (feed : List Watch) (ids : List String)
    (wh date : String) (out : List Market.StockRec) (rem : List String)
    (h : Market.create_stocks feed ids wh date = some (out, rem)) :
    ∃ out₀, Seller.create_stocks feed ids = some (out₀, rem) ∧
      out = out₀.map (fun r => Market.mkStock wh date r.offer_id r.stock) := by
  rw [market_create_stocks_eq] at h
  cases hs : Seller.create_stocks feed ids with
  | none => rw [hs] at h; exact absurd h (by simp)
  | some p =>
      obtain ⟨out₀, rem₀⟩ := p
      rw [hs] at h
      simp only [Option.map_some', Option.some.injEq, Prod.mk.injEq] at h
      obtain ⟨h1, h2⟩ := h
      subst h2
      exact ⟨out₀, rfl, h1.symm⟩

/-- The offer ids of a successful `seller.create_stocks` output are a
permutation of the initial working set (duplicates included). -/
theorem create_stocks_ids_perm (feed : List Watch) (ids : List String)
    (out : List StockRec) (rem : List String)
    (h : Seller.create_stocks feed ids = some (out, rem)) :
    (out.map StockRec.offer_id).Perm ids := by
  obtain ⟨recs, hl, hout⟩ := create_stocks_decomp feed ids out rem h
  subst hout
  have hper := stocks_loop_perm feed ids recs rem hl
  rw [List.map_append, List.map_map]
  have hco : rem.map (StockRec.offer_id ∘ fun i => (⟨i, 0⟩ : StockRec)) = rem := by
    show rem.map (fun i => i) = rem
    exact List.map_id rem
  rw [hco]
  exact hper

/-- The head-shape of a `seller.stocks_loop` run whose first row is
matched: the emitted stock is the one computed by the quantity rule. -/
theorem stocks_head_shape (w : Watch) (ws : List Watch) (ids : List String)
    (out : List StockRec) (rem : List String) (hm : w.code ∈ ids)
    (h : Seller.create_stocks (w :: ws) ids = some (out, rem)) :
    ∃ s tl, out = ⟨w.code, s⟩ :: tl ∧
      (if w.quantity = ">10" then some (100 : Int)
       else if w.quantity = "1" then some 0
       else int_parse w.quantity) = some s := by
  obtain ⟨recs, hl, hout⟩ := create_stocks_decomp (w :: ws) ids out rem h
  subst hout
  simp only [Seller.stocks_loop, if_pos hm] at hl
  cases hq : (if w.quantity = ">10" then some (100 : Int)
              else if w.quantity = "1" then some 0
              else int_parse w.quantity) with
  | none => rw [hq] at hl; exact absurd hl (by simp)
  | some s =>
      rw [hq] at hl
      cases hr : Seller.stocks_loop ws (ids.erase w.code) with
      | none => rw [hr] at hl; exact absurd hl (by simp)
      | some p =>
          obtain ⟨recs', rem'⟩ := p
          rw [hr] at hl
          simp only [Option.some.injEq, Prod.mk.injEq] at hl
          obtain ⟨h1, _⟩ := hl
          exact ⟨s, recs' ++ rem.map (fun i => (⟨i, 0⟩ : StockRec)),
            by rw [← h1]; simp, rfl⟩

end HelperLemmas

section Claims

/-- Claim C1 (counterexample): with the duplicate known-offer-id list
`["a", "a"]` and an empty supplier feed, `seller.create_stocks` emits
the id `"a"` twice, not exactly once. -/
theorem claim1_counterexample :
    Seller.create_stocks [] ["a", "a"]
        = some ([⟨"a", 0⟩, ⟨"a", 0⟩], ["a", "a"]) ∧
      (([⟨"a", 0⟩, ⟨"a", 0⟩] : List StockRec).map StockRec.offer_id).count "a" = 2 := by
  constructor
  · rfl
  · rfl

/-- Claim C1 (amended): when the known offer ids are duplicate-free and
`create_stocks` returns (no quantity-parse error), the output's offer
ids cover every known id exactly once and no other id — in both the
Ozon and the Yandex.Market implementation. -/
theorem claim1_stock_output_covers_ids :
    ∀ (feed : List Watch) (ids : List String), ids.Nodup →
      (∀ out rem, Seller.create_stocks feed ids = some (out, rem) →
        ∀ x, (out.map StockRec.offer_id).count x = if x ∈ ids then 1 else 0) ∧
      (∀ wh date out rem, Market.create_stocks feed ids wh date = some (out, rem) →
        ∀ x, (out.map Market.StockRec.sku).count x = if x ∈ ids then 1 else 0) := by
  intro feed ids hnd
  have seller_part : ∀ out rem, Seller.create_stocks feed ids = some (out, rem) →
      ∀ x, (out.map StockRec.offer_id).count x = if x ∈ ids then 1 else 0 := by
    intro out rem h x
    have hper := create_stocks_ids_perm feed ids out rem h
    rw [hper.count_eq x]
    by_cases hx : x ∈ ids
    · rw [if_pos hx]
      exact List.count_eq_one_of_mem hnd hx
    · rw [if_neg hx]
      exact List.count_eq_zero_of_not_mem hx
  refine ⟨seller_part, ?_⟩
  intro wh date out rem h x
  obtain ⟨out₀, hs, hout⟩ := market_create_stocks_decomp feed ids wh date out rem h
  subst hout
  have : (out₀.map (fun r => Market.mkStock wh date r.offer_id r.stock)).map
      Market.StockRec.sku = out₀.map StockRec.offer_id := by
    simp [Market.mkStock]
  rw [this]
  exact seller_part out₀ rem hs x

/-- Claim C2 (confirmed): a supplier row whose code matches a known
offer id is emitted with quantity 100 when the quantity string is
`">10"`, 0 when it is `"1"`, and its plain integer parse otherwise; when
that parse fails, `create_stocks` raises instead of returning.  This
holds for both marketplace implementations. -/
theorem claim2_quantity_rule :
    ∀ (w : Watch) (ws : List Watch) (ids : List String), w.code ∈ ids →
      (∀ out rem, Seller.create_stocks (w :: ws) ids = some (out, rem) →
        ∃ s tl, out = ⟨w.code, s⟩ :: tl ∧
          ((w.quantity = ">10" ∧ s = 100) ∨
           (w.quantity ≠ ">10" ∧ w.quantity = "1" ∧ s = 0) ∨
           (w.quantity ≠ ">10" ∧ w.quantity ≠ "1" ∧ int_parse w.quantity = some s))) ∧
      (w.quantity ≠ ">10" → w.quantity ≠ "1" → int_parse w.quantity = none →
        Seller.create_stocks (w :: ws) ids = none) ∧
      (∀ wh date out rem, Market.create_stocks (w :: ws) ids wh date = some (out, rem) →
        ∃ s tl, out = Market.mkStock wh date w.code s :: tl ∧
          ((w.quantity = ">10" ∧ s = 100) ∨
           (w.quantity ≠ ">10" ∧ w.quantity = "1" ∧ s = 0) ∨
           (w.quantity ≠ ">10" ∧ w.quantity ≠ "1" ∧ int_parse w.quantity = some s))) := by
  intro w ws ids hm
  have rule_split : ∀ s : Int,
      (if w.quantity = ">10" then some (100 : Int)
       else if w.quantity = "1" then some 0
       else int_parse w.quantity) = some s →
      ((w.quantity = ">10" ∧ s = 100) ∨
       (w.quantity ≠ ">10" ∧ w.quantity = "1" ∧ s = 0) ∨
       (w.quantity ≠ ">10" ∧ w.quantity ≠ "1" ∧ int_parse w.quantity = some s)) := by
    intro s hq
    by_cases h1 : w.quantity = ">10"
    · rw [if_pos h1] at hq
      exact Or.inl ⟨h1, by simpa using hq.symm⟩
    · rw [if_neg h1] at hq
      by_cases h2 : w.quantity = "1"
      · rw [if_pos h2] at hq
        exact Or.inr (Or.inl ⟨h1, h2, by simpa using hq.symm⟩)
      · rw [if_neg h2] at hq
        exact Or.inr (Or.inr ⟨h1, h2, hq⟩)
  refine ⟨?_, ?_, ?_⟩
  · intro out rem h
    obtain ⟨s, tl, hout, hq⟩ := stocks_head_shape w ws ids out rem hm h
    exact ⟨s, tl, hout, rule_split s hq⟩
  · intro h1 h2 h3
    unfold Seller.create_stocks
    simp only [Seller.stocks_loop, if_pos hm, if_neg h1, if_neg h2, h3]
    rfl
  · intro wh date out rem h
    obtain ⟨out₀, hs, hout⟩ := market_create_stocks_decomp (w :: ws) ids wh date out rem h
    obtain ⟨s, tl, hout₀, hq⟩ := stocks_head_shape w ws ids out₀ rem hm hs
    refine ⟨s, tl.map (fun r => Market.mkStock wh date r.offer_id r.stock), ?_,
      rule_split s hq⟩
    rw [hout, hout₀]
    rfl

/-- Claim C2 (witness): a matched row with an unparseable quantity makes
`seller.create_stocks` raise. -/
theorem claim2_witness :
    ("x" : String) ∈ (["x"] : List String) ∧
      Seller.create_stocks [⟨"x", "abc", "p"⟩] ["x"] = none :=
  ⟨by decide,
    (claim2_quantity_rule ⟨"x", "abc", "p"⟩ [] ["x"] (by decide)).2.1
      (by decide) (by decide) (by decide)⟩

/-- Claim C3 (counterexample): on a matched row whose price normalizes
to the empty sentinel, `market.create_prices` raises (it integer-parses
the normalized price), contradicting the claim that the reconciliation
still emits the record. -/
theorem claim3_counterexample :
    Seller.price_conversion "нет в наличии" = "" ∧
      ("123" : String) ∈ (["123"] : List String) ∧
      Market.create_prices [⟨"123", "1", "нет в наличии"⟩] ["123"] = none := by
  refine ⟨by decide, by decide, by decide⟩

/-- Claim C3 (amended): for a matched supplier row whose price
normalizes to the empty sentinel, `seller.create_prices` still emits the
record with the empty price value, while `market.create_prices` raises
(returns no list at all). -/
theorem claim3_empty_price :
    ∀ (feed : List Watch) (ids : List String) (w : Watch),
      w ∈ feed → w.code ∈ ids → Seller.price_conversion w.price = "" →
      (⟨"UNKNOWN", "RUB", w.code, "0", ""⟩ : Seller.PriceRec)
          ∈ Seller.create_prices feed ids ∧
        Market.create_prices feed ids = none := by
  intro feed ids w hw hm hpc
  have hfil : w ∈ feed.filter (fun w => decide (w.code ∈ ids)) :=
    List.mem_filter.mpr ⟨hw, by simpa using hm⟩
  constructor
  · rw [seller_create_prices_eq]
    have : Seller.mkPrice w = ⟨"UNKNOWN", "RUB", w.code, "0", ""⟩ := by
      unfold Seller.mkPrice
      rw [hpc]
    rw [← this]
    exact List.mem_map_of_mem Seller.mkPrice hfil
  · rw [market_create_prices_eq]
    refine mapOption_eq_none_of_mem Market.mkPrice _ w hfil ?_
    unfold Market.mkPrice
    rw [hpc]
    rfl

/-- Claim C3 (witness): concrete instance of the amended claim. -/
theorem claim3_witness :
    (⟨"UNKNOWN", "RUB", "9", "0", ""⟩ : Seller.PriceRec)
        ∈ Seller.create_prices [⟨"9", "1", "x"⟩] ["9"] ∧
      Market.create_prices [⟨"9", "1", "x"⟩] ["9"] = none :=
  claim3_empty_price [⟨"9", "1", "x"⟩] ["9"] ⟨"9", "1", "x"⟩
    (by decide) (by decide) (by decide)

/-- Claim C4 (counterexample): two `market.create_stocks` runs on
identical reconciliation inputs but at different clock instants produce
different output (the `updatedAt` field embeds the clock reading), so
the output is not byte-identical across runs. -/
theorem claim4_counterexample :
    Market.create_stocks [] ["a"] "w" "2024-05-01T00:00:00Z"
      ≠ Market.create_stocks [] ["a"] "w" "2024-05-01T00:00:01Z" := by
  decide

/-- Claim C4 (amended): reconciliation is deterministic in its inputs
up to the clock: dropping the `updatedAt` timestamp, two
`market.create_stocks` runs on identical inputs agree regardless of the
clock readings (and hence byte-identically when the readings agree). -/
theorem claim4_determinism_modulo_timestamp :
    ∀ (feed : List Watch) (ids : List String) (wh d₁ d₂ : String),
      (Market.create_stocks feed ids wh d₁).map (fun p => (p.1.map stripStock, p.2))
        = (Market.create_stocks feed ids wh d₂).map
            (fun p => (p.1.map stripStock, p.2)) := by
  intro feed ids wh d₁ d₂
  rw [market_create_stocks_eq, market_create_stocks_eq]
  cases Seller.create_stocks feed ids with
  | none => rfl
  | some p => simp [stripStock, Market.mkStock]

/-- Claim C1 (witness): concrete instance of the amended claim. -/
theorem claim1_witness :
    (["123", "456"] : List String).Nodup ∧
      ((([⟨"123", 100⟩, ⟨"456", 0⟩] : List StockRec).map StockRec.offer_id).count "123"
        = if ("123" : String) ∈ (["123", "456"] : List String) then 1 else 0) :=
  ⟨by decide,
    (claim1_stock_output_covers_ids [⟨"123", ">10", "p"⟩] ["123", "456"] (by decide)).1
      [⟨"123", 100⟩, ⟨"456", 0⟩] ["456"] (by decide) "123"⟩

/-- Claim C5 (confirmed): for every list and chunk size `n > 0`,
`seller.divide` yields chunks whose concatenation is exactly the input,
with every non-final chunk of length exactly `n` and every chunk
nonempty of length at most `n`; the empty list yields zero chunks. -/
theorem claim5_divide_partition :
    (∀ (α : Type) (l : List α) (n : Nat), 0 < n →
      ∀ out, Seller.divide l n = some out →
        out.flatten = l ∧
        (∀ c ∈ out.dropLast, c.length = n) ∧
        (∀ c ∈ out, c ≠ [] ∧ c.length ≤ n) ∧
        (l = [] → out = [])) ∧
    Seller.divide ([1, 2, 3, 4, 5] : List Nat) 2 = some [[1, 2], [3, 4], [5]] ∧
    Seller.divide ([] : List Nat) 7 = some [] := by
  refine ⟨?_, by simp [Seller.divide, Seller.chunk], by simp [Seller.divide, Seller.chunk]⟩
  intro α l n hn out hdiv
  unfold Seller.divide at hdiv
  rw [if_neg (by omega)] at hdiv
  simp only [Option.some.injEq] at hdiv
  subst hdiv
  have hn1 : n - 1 + 1 = n := by omega
  refine ⟨chunk_flatten _ _, ?_, ?_, ?_⟩
  · intro c hc
    rw [← hn1]
    exact chunk_dropLast_length (n - 1) l c hc
  · intro c hc
    obtain ⟨h1, h2⟩ := chunk_mem_length (n - 1) l c hc
    exact ⟨h1, by omega⟩
  · intro he
    subst he
    exact (chunk_eq_nil_iff (n - 1) ([] : List α)).mpr rfl

/-- Claim C5 (witness): the partition properties at the spec's concrete
example. -/
theorem claim5_witness :
    (0 < 2) ∧ ([[1, 2], [3, 4], [5]] : List (List Nat)).flatten = [1, 2, 3, 4, 5] :=
  ⟨by decide,
    (claim5_divide_partition.1 Nat [1, 2, 3, 4, 5] 2 (by decide)
      [[1, 2], [3, 4], [5]] (by simp [Seller.divide, Seller.chunk])).1⟩

/-- Claim C6 (counterexample): the record actually emitted for the
spec's example carries currency `"RUR"` (not `"RUB"`) in the
Yandex.Market implementation, and the Ozon implementation emits the
price as the digit string `"5990"`, not an integer. -/
theorem claim6_counterexample :
    Market.create_prices [⟨"123", "1", "5\x27990.00 руб."⟩] ["123"]
        = some [⟨"123", ⟨5990, "RUR"⟩⟩] ∧
      ("RUR" : String) ≠ "RUB" ∧
      Seller.create_prices [⟨"123", "1", "5\x27990.00 руб."⟩] ["123"]
        = [⟨"UNKNOWN", "RUB", "123", "0", "5990"⟩] := by
  refine ⟨by decide, by decide, by decide⟩

/-- Claim C6 (amended): both price reconciliations emit exactly one
record per supplier row whose code is a known offer id and nothing else
(no synthesized entries, empty output when nothing matches); the spec's
example row yields `{id: "123", price.value: 5990, currencyId: "RUR"}`
on Yandex.Market and `{offer_id: "123", price: "5990",
currency_code: "RUB"}` on Ozon. -/
theorem claim6_price_records :
    (∀ (feed : List Watch) (ids : List String),
      Seller.create_prices feed ids
        = (feed.filter (fun w => decide (w.code ∈ ids))).map Seller.mkPrice) ∧
    (∀ (feed : List Watch) (ids : List String),
      Market.create_prices feed ids
        = mapOption Market.mkPrice (feed.filter (fun w => decide (w.code ∈ ids)))) ∧
    Market.create_prices [⟨"123", "1", "5\x27990.00 руб."⟩] ["123"]
        = some [⟨"123", ⟨5990, "RUR"⟩⟩] ∧
    Seller.create_prices [⟨"123", "1", "5\x27990.00 руб."⟩] ["123"]
        = [⟨"UNKNOWN", "RUB", "123", "0", "5990"⟩] ∧
    Market.create_prices [⟨"123", "1", "5\x27990.00 руб."⟩] ["456"] = some [] ∧
    Seller.create_prices [⟨"123", "1", "5\x27990.00 руб."⟩] ["456"] = [] := by
  exact ⟨seller_create_prices_eq, market_create_prices_eq,
    by decide, by decide, by decide, by decide⟩

/-- Claim C7 (confirmed): the price normalizer truncates its input at
the first `.` and keeps exactly the characters in `0`–`9` of what
remains; it is total, and maps the spec's examples as stated. -/
theorem claim7_price_conversion_spec :
    (∀ p : String, Seller.price_conversion p
        = String.mk ((p.data.takeWhile (fun c => decide (c ≠ '.'))).filter
            (fun c => decide (('0' : Char) ≤ c ∧ c ≤ ('9' : Char))))) ∧
    Seller.price_conversion "5\x27990.00 руб." = "5990" ∧
    Seller.price_conversion "1 200.50 руб." = "1200" ∧
    Seller.price_conversion "" = "" ∧
    Seller.price_conversion "нет в наличии" = "" := by
  refine ⟨?_, by decide, by decide, by decide, by decide⟩
  intro p
  unfold Seller.price_conversion
  rw [takeBeforeDot_eq_takeWhile]
  congr 1
  refine List.filter_congr ?_
  intro c _
  exact isDigit_eq_range c

/-- Claim C8 (confirmed): a successful stock reconciliation output is
the matched records — whose offer ids appear in supplier-feed order —
followed by the synthesized zero records in the order of the remaining
(unmatched) working set, which itself preserves the initial order; in
both implementations. -/
theorem claim8_output_order :
    ∀ (feed : List Watch) (ids : List String),
      (∀ out rem, Seller.create_stocks feed ids = some (out, rem) →
        ∃ matched, out = matched ++ rem.map (fun i => (⟨i, 0⟩ : StockRec)) ∧
          (matched.map StockRec.offer_id).Sublist (feed.map Watch.code) ∧
          rem.Sublist ids) ∧
      (∀ wh date out rem, Market.create_stocks feed ids wh date = some (out, rem) →
        ∃ matched, out = matched ++ rem.map (fun i => Market.mkStock wh date i 0) ∧
          (matched.map Market.StockRec.sku).Sublist (feed.map Watch.code) ∧
          rem.Sublist ids) := by
  intro feed ids
  have seller_part : ∀ out rem, Seller.create_stocks feed ids = some (out, rem) →
      ∃ matched, out = matched ++ rem.map (fun i => (⟨i, 0⟩ : StockRec)) ∧
        (matched.map StockRec.offer_id).Sublist (feed.map Watch.code) ∧
        rem.Sublist ids := by
    intro out rem h
    obtain ⟨recs, hl, hout⟩ := create_stocks_decomp feed ids out rem h
    obtain ⟨hs1, hs2⟩ := stocks_loop_sublist feed ids recs rem hl
    exact ⟨recs, hout, hs1, hs2⟩
  refine ⟨seller_part, ?_⟩
  intro wh date out rem h
  obtain ⟨out₀, hs, hout⟩ := market_create_stocks_decomp feed ids wh date out rem h
  obtain ⟨matched, hdec, hsub1, hsub2⟩ := seller_part out₀ rem hs
  refine ⟨matched.map (fun r => Market.mkStock wh date r.offer_id r.stock), ?_, ?_, hsub2⟩
  · rw [hout, hdec, List.map_append, List.map_map]
    rfl
  · have : (matched.map (fun r => Market.mkStock wh date r.offer_id r.stock)).map
        Market.StockRec.sku = matched.map StockRec.offer_id := by
      simp [Market.mkStock]
    rw [this]
    exact hsub1

/-- Claim C8 (witness): concrete instance (one matched row, one
synthesized zero). -/
theorem claim8_witness :
    Seller.create_stocks [⟨"123", "5", "p"⟩] ["123", "456"]
        = some ([⟨"123", 5⟩, ⟨"456", 0⟩], ["456"]) ∧
      ∃ matched, ([⟨"123", 5⟩, ⟨"456", 0⟩] : List StockRec)
          = matched ++ (["456"] : List String).map (fun i => (⟨i, 0⟩ : StockRec)) ∧
        (matched.map StockRec.offer_id).Sublist
          (([⟨"123", "5", "p"⟩] : List Watch).map Watch.code) ∧
        (["456"] : List String).Sublist ["123", "456"] :=
  ⟨by decide,
    (claim8_output_order [⟨"123", "5", "p"⟩] ["123", "456"]).1
      [⟨"123", 5⟩, ⟨"456", 0⟩] ["456"] (by decide)⟩

/-- Claim C9 (confirmed): whenever the marketplace signals exhaustion at
some page of the trace — for Ozon, the running item count reaching the
server-reported total; for Yandex.Market, an empty next-page token — and
not earlier, the aggregator returns the concatenation, in fetch order,
of the offer identifiers of every fetched page; the page trace is
arbitrary (no maximum page count is assumed). -/
theorem claim9_pagination_exhaustion :
    (∀ (pages : List Seller.Page) (k : Nat), k < pages.length →
      sellerExhaustsAt pages k → (∀ j, j < k → ¬ sellerExhaustsAt pages j) →
      Seller.get_offer_ids pages
        = some ((((pages.take (k + 1)).map Seller.Page.items).flatten).map
            Seller.Product.offer_id)) ∧
    (∀ (pages : List Market.Page) (k : Nat), k < pages.length →
      marketExhaustsAt pages k → (∀ j, j < k → ¬ marketExhaustsAt pages j) →
      Market.get_offer_ids pages
        = some ((((pages.take (k + 1)).map Market.Page.offerMappingEntries).flatten).map
            (fun e => e.offer.shopSku))) := by
  constructor
  · intro pages k hk hex hmin
    have hex' : (pages.getD k sellerPageDefault).total
        = ([] : List Seller.Product).length
          + (((pages.take (k + 1)).map Seller.Page.items).flatten).length := by
      simpa [sellerExhaustsAt] using hex
    have hmin' : ∀ j, j < k → (pages.getD j sellerPageDefault).total
        ≠ ([] : List Seller.Product).length
          + (((pages.take (j + 1)).map Seller.Page.items).flatten).length := by
      intro j hj
      simpa [sellerExhaustsAt] using hmin j hj
    unfold Seller.get_offer_ids
    rw [seller_collect_spec pages [] k hk hex' hmin']
    simp
  · intro pages k hk hex hmin
    have hex' : (pages.getD k marketPageDefault).nextPageToken = "" := hex
    have hmin' : ∀ j, j < k →
        (pages.getD j marketPageDefault).nextPageToken ≠ "" := hmin
    unfold Market.get_offer_ids
    rw [market_collect_spec pages [] k hk hex' hmin']
    simp

/-- Claim C9 (witness): two-page traces for both marketplaces, each
exhausting at the second page. -/
theorem claim9_witness :
    sellerExhaustsAt [⟨[⟨"a"⟩, ⟨"b"⟩], "x", 3⟩, ⟨[⟨"c"⟩], "", 3⟩] 1 ∧
      Seller.get_offer_ids [⟨[⟨"a"⟩, ⟨"b"⟩], "x", 3⟩, ⟨[⟨"c"⟩], "", 3⟩]
        = some ["a", "b", "c"] ∧
      marketExhaustsAt [⟨[⟨⟨"a"⟩⟩], "t"⟩, ⟨[⟨⟨"b"⟩⟩], ""⟩] 1 ∧
      Market.get_offer_ids [⟨[⟨⟨"a"⟩⟩], "t"⟩, ⟨[⟨⟨"b"⟩⟩], ""⟩]
        = some ["a", "b"] :=
  ⟨by decide,
    (claim9_pagination_exhaustion.1 [⟨[⟨"a"⟩, ⟨"b"⟩], "x", 3⟩, ⟨[⟨"c"⟩], "", 3⟩] 1
        (by decide) (by decide) (by decide)).trans (by decide),
    by decide,
    (claim9_pagination_exhaustion.2 [⟨[⟨⟨"a"⟩⟩], "t"⟩, ⟨[⟨⟨"b"⟩⟩], ""⟩] 1
        (by decide) (by decide) (by decide)).trans (by decide)⟩

/-- Claim C10 (counterexample): with the duplicate working set
`["a", "a"]`, the code `"a"` is matched by a supplier record yet still
remains in the final working set, so the final set does not contain
exactly the unmatched ids. -/
theorem claim10_counterexample :
    Seller.create_stocks [⟨"a", "5", "p"⟩] ["a", "a"]
        = some ([⟨"a", 5⟩, ⟨"a", 0⟩], ["a"]) ∧
      ("a" : String) ∈ ([⟨"a", "5", "p"⟩] : List Watch).map Watch.code ∧
      (["a"] : List String) ≠ [] := by
  refine ⟨by decide, by decide, by decide⟩

/-- Claim C10 (amended): over a duplicate-free working set, a successful
`create_stocks` call leaves the `offer_ids` argument holding exactly the
known ids matched by no supplier record, in their original order
(mutation modelled by returning the final working set; the supplier feed
is only read).  Holds for both implementations. -/
theorem claim10_final_working_set :
    ∀ (feed : List Watch) (ids : List String), ids.Nodup →
      (∀ out rem, Seller.create_stocks feed ids = some (out, rem) →
        rem = ids.filter (fun x => decide (x ∉ feed.map Watch.code))) ∧
      (∀ wh date out rem, Market.create_stocks feed ids wh date = some (out, rem) →
        rem = ids.filter (fun x => decide (x ∉ feed.map Watch.code))) := by
  intro feed ids hnd
  have seller_part : ∀ out rem, Seller.create_stocks feed ids = some (out, rem) →
      rem = ids.filter (fun x => decide (x ∉ feed.map Watch.code)) := by
    intro out rem h
    obtain ⟨recs, hl, _⟩ := create_stocks_decomp feed ids out rem h
    exact stocks_loop_final_ids feed ids hnd recs rem hl
  refine ⟨seller_part, ?_⟩
  intro wh date out rem h
  obtain ⟨out₀, hs, _⟩ := market_create_stocks_decomp feed ids wh date out rem h
  exact seller_part out₀ rem hs

/-- Claim C10 (witness): concrete instance of the amended claim. -/
theorem claim10_witness :
    (["123", "456"] : List String).Nodup ∧
      (["456"] : List String) = (["123", "456"] : List String).filter
        (fun x => decide (x ∉ ([⟨"123", "5", "p"⟩] : List Watch).map Watch.code)) :=
  ⟨by decide,
    (claim10_final_working_set [⟨"123", "5", "p"⟩] ["123", "456"] (by decide)).1
      [⟨"123", 5⟩, ⟨"456", 0⟩] ["456"] (by decide)⟩

end Claims
